import Mathlib

/-
Verification of the character-indexed text slicer, textual representation
encoder (src/common/src/str.rs) and the lazy map combinator
(src/vm/src/builtins/map.rs) of this repository.

Text values are modelled as lists of Unicode scalar values (Lean Char, the
same notion as Rust char).  The target is 64-bit: usize arithmetic is
modelled as Nat arithmetic modulo 2 ^ 64 (the release-build wrapping
semantics of the unchecked + and - that the source uses), and isize MAX
is 2 ^ 63 - 1.
-/

namespace RustPython

/-- The modulus of usize arithmetic on the 64-bit target. -/
def usizeMod : Nat := 2 ^ 64

/-- isize MAX as usize, on the 64-bit target. -/
def isizeMax : Nat := 2 ^ 63 - 1

/-- Wrapping usize addition (release-build semantics of unchecked +). -/
def wadd (a b : Nat) : Nat := (a + b) % usizeMod

/-- Wrapping usize subtraction (release-build semantics of unchecked -),
for operands below the modulus. -/
def wsub (a b : Nat) : Nat := (a + usizeMod - b) % usizeMod

/-- Rust std::ops::Bound over usize, as received by try_get_chars. -/
inductive Bnd where
  | included : Nat → Bnd
  | excluded : Nat → Bnd
  | unbounded : Bnd
deriving DecidableEq

/-- A RangeBounds value: a start bound and an end bound. -/
structure CRange where
  start : Bnd
  stop : Bnd
deriving DecidableEq

/-- Rust char::len_utf8: the number of bytes of the UTF-8 encoding of a
scalar value. -/
def lenUtf8 (c : Char) : Nat :=
  if c.toNat < 0x80 then 1
  else if c.toNat < 0x800 then 2
  else if c.toNat < 0x10000 then 3
  else 4

/-- The byte length of a text value: str::len of the UTF-8 storage. -/
def byteLen (s : List Char) : Nat := (s.map lenUtf8).sum

/-- Helper for char_indices: pairs each character with its byte offset,
starting from a given offset. -/
def charIndicesAux (ofs : Nat) : List Char → List (Nat × Char)
  | [] => []
  | c :: cs => (ofs, c) :: charIndicesAux (ofs + lenUtf8 c) cs

/-- Rust str::char_indices: each character paired with its byte offset. -/
def char_indices (s : List Char) : List (Nat × Char) := charIndicesAux 0 s

/-- src/common/src/str.rs char_range_end: the byte offset just past the
nchars-th character, if the string has that many characters.  The if
mirrors checked_sub: zero characters always give byte offset 0. -/
def char_range_end (s : List Char) (nchars : Nat) : Option Nat :=
  if nchars = 0 then some 0
  else
    match (char_indices s).get? (nchars - 1) with
    | none => none
    | some ic => some (ic.1 + lenUtf8 ic.2)

/-- The byte slice s[..n] for a byte offset n, as the list of whole
characters whose encodings lie inside the first n bytes.  Every offset the
source passes here is a character boundary (proved below), where this
agrees with Rust slicing. -/
def sliceToByte : List Char → Nat → List Char
  | [], _ => []
  | c :: cs, n => if lenUtf8 c ≤ n then c :: sliceToByte cs (n - lenUtf8 c) else []

/-- The start-bound match of try_get_chars: an excluded start is
incremented with the source's unchecked usize +. -/
def resolveStart : Bnd → Nat
  | .included i => i
  | .excluded i => wadd i 1
  | .unbounded => 0

/-- src/common/src/str.rs try_get_chars: resolve the start bound, discard
that many characters (absence marker if too few), then either return the
whole suffix (unbounded end) or compute the requested character count with
the source's unchecked usize arithmetic and cut at the resulting byte
offset. -/
def try_get_chars (s : List Char) (r : CRange) : Option (List Char) :=
  let start : Nat := resolveStart r.start
  if s.length < start then none
  else
    let rest := s.drop start
    match r.stop with
    | .unbounded => some rest
    | .included i =>
      Option.map (fun e => sliceToByte rest e) (char_range_end rest (wsub (wadd i 1) start))
    | .excluded i =>
      Option.map (fun e => sliceToByte rest e) (char_range_end rest (wsub i start))

/-- src/common/src/str.rs get_chars: unwrap of try_get_chars.  The unwrap
is a fatal precondition violation on the absence marker, so the model takes
the caller's evidence that the range was valid. -/
def get_chars (s : List Char) (r : CRange) (h : (try_get_chars s r).isSome) : List Char :=
  (try_get_chars s r).get h

/-- The start bound resolved to a character position, in exact (unbounded)
arithmetic. -/
def mStartOf : Bnd → Nat
  | .included i => i
  | .excluded i => i + 1
  | .unbounded => 0

/-- The end bound resolved to an exclusive character position, in exact
arithmetic; an unbounded end resolves to the character count. -/
def mEndOf : Bnd → Nat → Nat
  | .included i, _ => i + 1
  | .excluded i, _ => i
  | .unbounded, len => len

/-- A range is valid for a text when its resolved start does not pass its
resolved end and the resolved end is within the character count (start
within bounds, requested length at most the remaining characters). -/
def validRange (s : List Char) (r : CRange) : Prop :=
  mStartOf r.start ≤ mEndOf r.stop s.length ∧ mEndOf r.stop s.length ≤ s.length

instance (s : List Char) (r : CRange) : Decidable (validRange s r) := by
  unfold validRange; infer_instance

/-- A start bound whose resolution avoids usize wrap-around: an excluded
start bound is incremented by the source with unchecked +, so it must not
be usize MAX. -/
def bndStartOk : Bnd → Prop
  | .excluded i => i + 1 < usizeMod
  | .included i => i < usizeMod
  | .unbounded => True

instance (b : Bnd) : Decidable (bndStartOk b) := by
  cases b <;> unfold bndStartOk <;> infer_instance

/-- An end bound whose resolution avoids usize wrap-around: an included
end bound is incremented by the source with unchecked +, so it must not be
usize MAX. -/
def bndStopOk : Bnd → Prop
  | .included i => i + 1 < usizeMod
  | .excluded i => i < usizeMod
  | .unbounded => True

instance (b : Bnd) : Decidable (bndStopOk b) := by
  cases b <;> unfold bndStopOk <;> infer_instance

/-- A range's numeric bounds stay clear of usize wrap-around. -/
def noWrap (r : CRange) : Prop := bndStartOk r.start ∧ bndStopOk r.stop

instance (r : CRange) : Decidable (noWrap r) := by
  unfold noWrap; exact instDecidableAnd

/-- src/common/src/str.rs zfill: left-pad a byte sequence with ASCII zero
bytes (0x30) to the requested width, keeping a leading sign byte 0x2b or
0x2d first. -/
def zfill (bytes : List Nat) (width : Nat) : List Nat :=
  if width ≤ bytes.length then bytes
  else
    let signSplit : List Nat × List Nat :=
      match bytes.head? with
      | some b => if b = 43 ∨ b = 45 then (bytes.take 1, bytes.drop 1) else ([], bytes)
      | none => ([], bytes)
    signSplit.1 ++ (List.replicate (width - bytes.length) 48 ++ signSplit.2)

/-- An optional leading byte is a sign byte (ASCII plus or minus). -/
def isSignByte (o : Option Nat) : Prop := o = some 43 ∨ o = some 45

instance (o : Option Nat) : Decidable (isSignByte o) := by
  unfold isSignByte; exact instDecidableOr

/- ---------------------------------------------------------------- -/
/- Basic lemmas about the slicer.                                    -/
/- ---------------------------------------------------------------- -/

theorem one_le_lenUtf8 (c : Char) : 1 ≤ lenUtf8 c := by
  unfold lenUtf8
  by_cases h1 : c.toNat < 0x80 <;> by_cases h2 : c.toNat < 0x800 <;>
    by_cases h3 : c.toNat < 0x10000 <;> simp [h1, h2, h3]

theorem byteLen_cons (c : Char) (cs : List Char) :
    byteLen (c :: cs) = lenUtf8 c + byteLen cs := by
  simp [byteLen]

theorem charIndicesAux_get? (s : List Char) :
    ∀ ofs n, (charIndicesAux ofs s).get? n
      = (s.get? n).map (fun c => (ofs + byteLen (s.take n), c)) := by
  induction s with
  | nil => intro ofs n; simp [charIndicesAux]
  | cons c cs ih =>
    intro ofs n
    cases n with
    | zero => simp [charIndicesAux, byteLen]
    | succ n =>
      simp only [charIndicesAux, List.get?, ih (ofs + lenUtf8 c) n, List.take, byteLen_cons]
      cases cs.get? n <;> simp [Nat.add_assoc]

theorem char_range_end_eq (s : List Char) (n : Nat) :
    char_range_end s n = if n ≤ s.length then some (byteLen (s.take n)) else none := by
  cases n with
  | zero => simp [char_range_end, byteLen]
  | succ last =>
    unfold char_range_end char_indices
    rw [if_neg (Nat.succ_ne_zero last), Nat.succ_sub_one, charIndicesAux_get? s 0 last]
    rcases hg : s.get? last with _ | c
    · rw [List.get?_eq_none] at hg
      simp only [Option.map_none']
      rw [if_neg (by omega)]
    · have hlt : last < s.length := by
        by_contra hc
        rw [List.get?_eq_none.mpr (by omega)] at hg
        exact Option.noConfusion hg
      simp only [Option.map_some']
      rw [if_pos (by omega)]
      have htake : s.take (last + 1) = s.take last ++ [c] := by
        rw [List.take_succ, ← List.get?_eq_getElem?, hg]; rfl
      simp [htake, byteLen, Nat.zero_add]

theorem sliceToByte_byteLen_take (s : List Char) (n : Nat) :
    sliceToByte s (byteLen (s.take n)) = s.take n := by
  induction s generalizing n with
  | nil => simp [sliceToByte]
  | cons c cs ih =>
    cases n with
    | zero =>
      have h1 := one_le_lenUtf8 c
      simp only [List.take, byteLen, List.map, List.sum_nil, sliceToByte]
      rw [if_neg (by omega)]
    | succ n =>
      simp only [List.take, byteLen_cons, sliceToByte]
      rw [if_pos (by omega), Nat.add_sub_cancel_left]
      exact congrArg (c :: ·) (ih n)

theorem wadd_small (a b : Nat) (h : a + b < usizeMod) : wadd a b = a + b := by
  unfold wadd; exact Nat.mod_eq_of_lt h

theorem wsub_small (a b : Nat) (hba : b ≤ a) (ha : a < usizeMod) : wsub a b = a - b := by
  unfold wsub
  have h1 : a + usizeMod - b = (a - b) + usizeMod := by omega
  rw [h1, Nat.add_mod_right, Nat.mod_eq_of_lt (by omega)]

theorem wsub_wrap (a b : Nat) (hab : a < b) (hb : b ≤ usizeMod) :
    wsub a b = a + usizeMod - b := by
  unfold wsub
  exact Nat.mod_eq_of_lt (by omega)

theorem usizeMod_pos : 0 < usizeMod := by decide

theorem slice_some (t : List Char) (k : Nat) (hk : k ≤ t.length) :
    Option.map (fun e => sliceToByte t e) (char_range_end t k) = some (t.take k) := by
  rw [char_range_end_eq, if_pos hk, Option.map_some']
  rw [sliceToByte_byteLen_take]

theorem slice_none (t : List Char) (k : Nat) (hk : t.length < k) :
    Option.map (fun e => sliceToByte t e) (char_range_end t k) = none := by
  rw [char_range_end_eq, if_neg (by omega)]
  rfl

theorem take_drop_all (s : List Char) (a : Nat) :
    (s.drop a).take (s.length - a) = s.drop a := by
  rw [← List.length_drop]
  exact List.take_length _

theorem try_get_chars_valid (s : List Char) (r : CRange)
    (hlen : s.length < usizeMod) (hv : validRange s r) :
    try_get_chars s r
      = some ((s.drop (mStartOf r.start)).take (mEndOf r.stop s.length - mStartOf r.start)) := by
  obtain ⟨st, en⟩ := r
  obtain ⟨hv1, hv2⟩ := hv
  have haLen : mStartOf st ≤ s.length := le_trans hv1 hv2
  have hst : resolveStart st = mStartOf st := by
    cases st with
    | included i => rfl
    | excluded i =>
      have hi : i + 1 < usizeMod := by simp only [mStartOf] at haLen; omega
      simp only [resolveStart, mStartOf]
      exact wadd_small i 1 hi
    | unbounded => rfl
  simp only [try_get_chars, hst]
  rw [if_neg (by omega)]
  cases en with
  | unbounded =>
    simp only [mEndOf]
    rw [take_drop_all]
  | excluded j =>
    simp only [mEndOf] at hv1 hv2 ⊢
    rw [wsub_small j (mStartOf st) hv1 (by omega)]
    rw [slice_some _ _ (by rw [List.length_drop]; omega)]
  | included j =>
    simp only [mEndOf] at hv1 hv2 ⊢
    rw [wadd_small j 1 (by omega), wsub_small (j + 1) (mStartOf st) hv1 (by omega)]
    rw [slice_some _ _ (by rw [List.length_drop]; omega)]

/-- C1: for every text value and every character range valid for it (start
within bounds, requested length at most the remaining characters),
try_get_chars returns exactly the characters at the requested logical
character positions — positions counted in Unicode scalar values, not
storage bytes — and get_chars returns the same substring. -/
theorem c1_slice_valid_range (s : List Char) (r : CRange)
    (hlen : s.length < usizeMod) (hv : validRange s r)
    (h : (try_get_chars s r).isSome) :
    try_get_chars s r
      = some ((s.drop (mStartOf r.start)).take (mEndOf r.stop s.length - mStartOf r.start)) ∧
    get_chars s r h
      = (s.drop (mStartOf r.start)).take (mEndOf r.stop s.length - mStartOf r.start) := by
  have h1 := try_get_chars_valid s r hlen hv
  refine ⟨h1, ?_⟩
  unfold get_chars
  exact Option.get_of_mem h (Option.mem_def.mpr h1)

/-- C1 witness: slicing characters 1..4 out of a text whose characters are
1-, 2-, 3- and 4-byte scalars returns exactly those characters. -/
theorem c1_slice_valid_range_witness :
    try_get_chars ['0', 'é', '한', '𝄞', 'x'] ⟨Bnd.included 1, Bnd.excluded 4⟩
      = some ['é', '한', '𝄞'] ∧
    get_chars ['0', 'é', '한', '𝄞', 'x'] ⟨Bnd.included 1, Bnd.excluded 4⟩ (by decide)
      = ['é', '한', '𝄞'] := by
  have h := c1_slice_valid_range ['0', 'é', '한', '𝄞', 'x'] ⟨Bnd.included 1, Bnd.excluded 4⟩
    (by decide) (by decide) (by decide)
  exact ⟨h.1.trans (by decide), h.2.trans (by decide)⟩

/-- C2 counterexample: the range with unbounded start and included end
usize MAX requests usize MAX + 1 characters, far more than the one
remaining character, so by the claim it is invalid and must yield the
absence marker; but the unchecked usize increment wraps the requested
length to 0 and try_get_chars returns the empty substring instead (debug
builds abort on the same input). -/
theorem c2_counterexample :
    ¬ validRange ['a'] ⟨Bnd.unbounded, Bnd.included (usizeMod - 1)⟩ ∧
    try_get_chars ['a'] ⟨Bnd.unbounded, Bnd.included (usizeMod - 1)⟩ = some [] := by
  constructor
  · decide
  · decide

/-- C2 (amended): for every range whose excluded start bound and included
end bound are below usize MAX — so that the source's unchecked usize
increments cannot wrap — try_get_chars returns the absence marker on every
invalid range (start past the character count, or requested length
exceeding the remaining characters, or end before start). -/
theorem c2_invalid_range_none (s : List Char) (r : CRange)
    (hlen : s.length < usizeMod) (hw : noWrap r) (hv : ¬ validRange s r) :
    try_get_chars s r = none := by
  obtain ⟨st, en⟩ := r
  obtain ⟨hw1, hw2⟩ := hw
  have hst : resolveStart st = mStartOf st := by
    cases st with
    | included i => rfl
    | excluded i =>
      simp only [bndStartOk] at hw1
      simp only [resolveStart, mStartOf]
      exact wadd_small i 1 hw1
    | unbounded => rfl
  simp only [try_get_chars, hst]
  by_cases hcase : s.length < mStartOf st
  · rw [if_pos hcase]
  · rw [if_neg hcase]
    push_neg at hcase
    cases en with
    | unbounded =>
      exfalso
      exact hv ⟨by simp only [mEndOf]; omega, by simp only [mEndOf]; omega⟩
    | excluded j =>
      simp only [bndStopOk] at hw2
      simp only [validRange, mEndOf] at hv
      show Option.map (fun e => sliceToByte (List.drop (mStartOf st) s) e)
        (char_range_end (List.drop (mStartOf st) s) (wsub j (mStartOf st))) = none
      by_cases hj : mStartOf st ≤ j
      · have hjl : s.length < j := by omega
        rw [wsub_small j (mStartOf st) hj (by omega)]
        exact slice_none _ _ (by rw [List.length_drop]; omega)
      · push_neg at hj
        rw [wsub_wrap j (mStartOf st) hj (by omega)]
        exact slice_none _ _ (by rw [List.length_drop]; omega)
    | included j =>
      simp only [bndStopOk] at hw2
      simp only [validRange, mEndOf] at hv
      show Option.map (fun e => sliceToByte (List.drop (mStartOf st) s) e)
        (char_range_end (List.drop (mStartOf st) s) (wsub (wadd j 1) (mStartOf st))) = none
      rw [wadd_small j 1 (by omega)]
      by_cases hj : mStartOf st ≤ j + 1
      · have hjl : s.length < j + 1 := by omega
        rw [wsub_small (j + 1) (mStartOf st) hj (by omega)]
        exact slice_none _ _ (by rw [List.length_drop]; omega)
      · push_neg at hj
        rw [wsub_wrap (j + 1) (mStartOf st) hj (by omega)]
        exact slice_none _ _ (by rw [List.length_drop]; omega)

/-- C2 witness: a start past the character count yields the absence
marker. -/
theorem c2_invalid_range_none_witness :
    try_get_chars ['a'] ⟨Bnd.included 3, Bnd.unbounded⟩ = none :=
  c2_invalid_range_none ['a'] ⟨Bnd.included 3, Bnd.unbounded⟩ (by decide) (by decide) (by decide)

/-- C9: zfill returns a sequence of length max width (input length); an
input already at least width long is returned unchanged; otherwise ASCII
zero bytes are inserted after the optional leading sign byte (which stays
first) and before the remaining bytes, preserving the non-sign content in
order. -/
theorem c9_zfill_pad (b : List Nat) (w : Nat) :
    (zfill b w).length = max w b.length ∧
    (w ≤ b.length → zfill b w = b) ∧
    (b.length < w → isSignByte b.head? →
      zfill b w = b.take 1 ++ (List.replicate (w - b.length) 48 ++ b.drop 1)) ∧
    (b.length < w → ¬ isSignByte b.head? →
      zfill b w = List.replicate (w - b.length) 48 ++ b) := by
  by_cases hw : w ≤ b.length
  · refine ⟨?_, fun _ => by rw [zfill, if_pos hw], fun hc => absurd hw (by omega),
      fun hc => absurd hw (by omega)⟩
    rw [zfill, if_pos hw]
    omega
  · push_neg at hw
    cases b with
    | nil =>
      refine ⟨?_, fun hc => absurd hc (by simp at hw ⊢; omega), ?_, ?_⟩
      · rw [zfill, if_neg (by simp at hw ⊢; omega)]
        simp only [List.head?, List.length_nil, List.append_nil, List.nil_append,
          List.length_replicate]
        omega
      · intro _ hs
        exact absurd hs (by simp [isSignByte])
      · intro _ _
        simp [zfill]
    | cons x xs =>
      have hsign : isSignByte (x :: xs).head? ↔ (x = 43 ∨ x = 45) := by
        simp [isSignByte]
      by_cases hs : x = 43 ∨ x = 45
      · have hz : zfill (x :: xs) w
            = (x :: xs).take 1 ++ (List.replicate (w - (x :: xs).length) 48 ++ (x :: xs).drop 1) := by
          rw [zfill, if_neg (by omega)]
          simp only [List.head?, if_pos hs]
        refine ⟨?_, fun hc => absurd hc (by omega), fun _ _ => hz,
          fun _ hns => absurd (hsign.mpr hs) hns⟩
        rw [hz]
        simp only [List.length_append, List.length_replicate, List.length_take,
          List.length_drop, List.length_cons]
        omega
      · have hz : zfill (x :: xs) w
            = List.replicate (w - (x :: xs).length) 48 ++ (x :: xs) := by
          rw [zfill, if_neg (by omega)]
          simp only [List.head?, if_neg hs, List.nil_append]
        refine ⟨?_, fun hc => absurd hc (by omega),
          fun _ hsb => absurd (hsign.mp hsb) hs, fun _ _ => hz⟩
        rw [hz]
        simp only [List.length_append, List.length_replicate, List.length_cons]
        omega

/-- C9 witness: padding a signed numeric byte string keeps the sign first
(zfill of "-5" to width 5 is "-0005"), and a wide-enough input is returned
unchanged. -/
theorem c9_zfill_pad_witness :
    zfill [45, 53] 5 = [45, 48, 48, 48, 53] ∧
    (zfill [45, 53] 5).length = 5 ∧
    zfill [49] 1 = [49] := by
  have h1 := c9_zfill_pad [45, 53] 5
  have h2 := c9_zfill_pad [49] 1
  refine ⟨(h1.2.2.1 (by decide) (by decide)).trans (by decide), ?_, h2.2.1 (by decide)⟩
  rw [h1.1]
  decide

/- ---------------------------------------------------------------- -/
/- The textual representation encoder (repr).                        -/
/- ---------------------------------------------------------------- -/

/-- The per-character output cost of the sizing pass of repr
(src/common/src/str.rs).  The parameter p is the external Unicode
printability classifier (crate::char::is_printable), an external
collaborator of this excerpt, kept abstract. -/
def reprIncr (p : Char → Bool) (ch : Char) : Nat :=
  if ch = '\'' then 1
  else if ch = '"' then 1
  else if ch = '\\' ∨ ch = '\t' ∨ ch = '\r' ∨ ch = '\n' then 2
  else if ch.toNat < 0x20 ∨ ch.toNat = 0x7f then 4
  else if ch.toNat < 0x80 then 1
  else if p ch then lenUtf8 ch
  else if ch.toNat < 0x100 then 4
  else if ch.toNat < 0x10000 then 6
  else 10

/-- The sizing pass of repr: accumulate the output length with the
source's overflow check against isize MAX, and tally the embedded single
and double quotes.  Returns the absence marker on overflow. -/
def reprPass1 (p : Char → Bool) : List Char → Nat → Nat → Nat → Option (Nat × Nat × Nat)
  | [], out, sq, dq => some (out, sq, dq)
  | ch :: rest, out, sq, dq =>
    let incr := reprIncr p ch
    let sq' := if ch = '\'' then sq + 1 else sq
    let dq' := if ch = '"' then dq + 1 else dq
    if isizeMax - incr < out then none
    else reprPass1 p rest (out + incr) sq' dq'

/-- The total of the per-character costs of the sizing pass. -/
def incrSum (p : Char → Bool) (s : List Char) : Nat := (s.map (reprIncr p)).sum

/-- src/common/src/str.rs choose_quotes_for_repr: the outer quote to use
and the number of embedded quotes that need escaping — the single quote
unless there are single quotes and no double quotes. -/
def choose_quotes_for_repr (num_squotes num_dquotes : Nat) : Char × Nat :=
  if 0 < num_squotes ∧ num_dquotes = 0 then ('"', num_dquotes) else ('\'', num_squotes)

/-- The outer quote repr picks for a given text. -/
def chosenQuote (s : List Char) : Char :=
  (choose_quotes_for_repr (s.count '\'') (s.count '"')).1

/-- The number of embedded quote characters repr escapes for a given
text: the occurrences of the chosen quote. -/
def numEscapedQuotes (s : List Char) : Nat :=
  (choose_quotes_for_repr (s.count '\'') (s.count '"')).2

/-- The body length computed by the sizing pass: per-character costs plus
one backslash per escaped embedded quote. -/
def bodyLen (p : Char → Bool) (s : List Char) : Nat := incrSum p s + numEscapedQuotes s

/-- The total representation length: the sized body plus the two bounding
quote characters. -/
def totalReprLen (p : Char → Bool) (s : List Char) : Nat := bodyLen p s + 2

/-- Fixed-width lowercase hexadecimal, as produced by the 0-padded hex
format used in the source (exact for the widths and ranges used). -/
def hexPad (w n : Nat) : List Char :=
  let ds := Nat.toDigits 16 n
  List.replicate (w - ds.length) '0' ++ ds

/-- The per-character emission of the second pass of repr: escape the
newline, tab and carriage-return shorthands, backslash-escape the chosen
quote and the backslash, hex-escape other control and non-printable
characters by codepoint width, and copy everything else verbatim. -/
def reprEmitChar (p : Char → Bool) (quote ch : Char) : List Char :=
  if ch = '\n' then ['\\', 'n']
  else if ch = '\t' then ['\\', 't']
  else if ch = '\r' then ['\\', 'r']
  else if 0x20 ≤ ch.toNat ∧ ch.toNat ≤ 0x7e then
    if ch = quote ∨ ch = '\\' then ['\\', ch] else [ch]
  else if ch.toNat < 0x80 then '\\' :: 'x' :: hexPad 2 ch.toNat
  else if p ch then [ch]
  else if ch.toNat ≤ 0xff then '\\' :: 'x' :: hexPad 2 ch.toNat
  else if ch.toNat ≤ 0xffff then '\\' :: 'u' :: hexPad 4 ch.toNat
  else '\\' :: 'U' :: hexPad 8 ch.toNat

/-- The slow-path emission loop of repr: the concatenation of the
per-character emissions. -/
def reprBody (p : Char → Bool) (quote : Char) : List Char → List Char
  | [] => []
  | ch :: rest => reprEmitChar p quote ch ++ reprBody p quote rest

/-- src/common/src/str.rs repr: size the output (absence marker on
overflow), choose the outer quote, then emit — verbatim copy when the
sized body length equals the raw byte length, per-character emission
otherwise.  The out_len + 2 of the source only sizes the output buffer,
which the model does not observe. -/
def repr (p : Char → Bool) (s : List Char) : Option (List Char) :=
  match reprPass1 p s 0 0 0 with
  | none => none
  | some (out_len0, squote, dquote) =>
    let qn := choose_quotes_for_repr squote dquote
    let out_len := out_len0 + qn.2
    if out_len = byteLen s then some (qn.1 :: s ++ [qn.1])
    else some (qn.1 :: reprBody p qn.1 s ++ [qn.1])

/-- A character that needs no escaping in the body apart from quote
handling: not a control character, not a backslash, and printable when
non-ASCII. -/
def plainChar (p : Char → Bool) (c : Char) : Prop :=
  ¬(c.toNat < 0x20 ∨ c.toNat = 0x7f) ∧ c ≠ '\\' ∧ (0x80 ≤ c.toNat → p c = true)

instance (p : Char → Bool) (c : Char) : Decidable (plainChar p c) := by
  unfold plainChar; infer_instance

/-- A character the fast path of repr can copy verbatim: plain and not the
chosen quote (no quote-conflict, control, backslash, or non-printable
character). -/
def noEscapeChar (p : Char → Bool) (q c : Char) : Prop := plainChar p c ∧ c ≠ q

instance (p : Char → Bool) (q c : Char) : Decidable (noEscapeChar p q c) := by
  unfold noEscapeChar; exact instDecidableAnd

/- Lemmas about the sizing pass. -/

theorem lenUtf8_le_four (c : Char) : lenUtf8 c ≤ 4 := by
  unfold lenUtf8
  by_cases h1 : c.toNat < 0x80 <;> by_cases h2 : c.toNat < 0x800 <;>
    by_cases h3 : c.toNat < 0x10000 <;> simp [h1, h2, h3]

theorem reprIncr_le_ten (p : Char → Bool) (c : Char) : reprIncr p c ≤ 10 := by
  have h4 := lenUtf8_le_four c
  unfold reprIncr
  split_ifs <;> omega

theorem reprPass1_eq (p : Char → Bool) (s : List Char) :
    ∀ out sq dq : Nat, out ≤ isizeMax →
      reprPass1 p s out sq dq
        = if out + incrSum p s ≤ isizeMax
          then some (out + incrSum p s, sq + s.count '\'', dq + s.count '"')
          else none := by
  induction s with
  | nil =>
    intro out sq dq hout
    simp [reprPass1, incrSum, hout]
  | cons ch rest ih =>
    intro out sq dq hout
    have h10 : reprIncr p ch ≤ 10 := reprIncr_le_ten p ch
    have hiM : (10 : Nat) ≤ isizeMax := by decide
    have hsum : incrSum p (ch :: rest) = reprIncr p ch + incrSum p rest := by
      simp [incrSum]
    simp only [reprPass1]
    by_cases hc : isizeMax - reprIncr p ch < out
    · rw [if_pos hc, if_neg (by omega)]
    · rw [if_neg hc, ih (out + reprIncr p ch) _ _ (by omega), hsum]
      have hsq : (if ch = '\'' then sq + 1 else sq) + rest.count '\''
          = sq + (ch :: rest).count '\'' := by
        by_cases h1 : ch = '\'' <;> simp [h1, List.count_cons] <;> omega
      have hdq : (if ch = '"' then dq + 1 else dq) + rest.count '"'
          = dq + (ch :: rest).count '"' := by
        by_cases h1 : ch = '"' <;> simp [h1, List.count_cons] <;> omega
      rw [hsq, hdq, ← Nat.add_assoc]

theorem lenUtf8_le_reprIncr (p : Char → Bool) (c : Char) : lenUtf8 c ≤ reprIncr p c := by
  have h4 := lenUtf8_le_four c
  have h1 := one_le_lenUtf8 c
  unfold reprIncr
  split_ifs with hq1 hq2 hbs hctl hascii hpr hx1 hx2
  · subst hq1; decide
  · subst hq2; decide
  · rcases hbs with h | h | h | h <;> subst h <;> decide
  · have : lenUtf8 c = 1 := by unfold lenUtf8; rw [if_pos (by omega)]
    omega
  · have : lenUtf8 c = 1 := by unfold lenUtf8; rw [if_pos hascii]
    omega
  · exact le_refl _
  · have : lenUtf8 c = 2 := by
      unfold lenUtf8; rw [if_neg (by omega), if_pos (by omega)]
    omega
  · omega
  · omega

theorem reprIncr_eq_lenUtf8_iff (p : Char → Bool) (c : Char) :
    reprIncr p c = lenUtf8 c ↔ plainChar p c := by
  have h4 := lenUtf8_le_four c
  have h1 := one_le_lenUtf8 c
  unfold reprIncr
  split_ifs with hq1 hq2 hbs hctl hascii hpr hx1 hx2
  · subst hq1
    exact iff_of_true (by decide) ⟨by decide, by decide, fun h => absurd h (by decide)⟩
  · subst hq2
    exact iff_of_true (by decide) ⟨by decide, by decide, fun h => absurd h (by decide)⟩
  · rcases hbs with h | h | h | h <;> subst h
    · exact iff_of_false (by decide) (fun hp => hp.2.1 rfl)
    · exact iff_of_false (by decide) (fun hp => hp.1 (by decide))
    · exact iff_of_false (by decide) (fun hp => hp.1 (by decide))
    · exact iff_of_false (by decide) (fun hp => hp.1 (by decide))
  · have hl : lenUtf8 c = 1 := by unfold lenUtf8; rw [if_pos (by omega)]
    exact iff_of_false (by omega) (fun hp => hp.1 hctl)
  · have hl : lenUtf8 c = 1 := by unfold lenUtf8; rw [if_pos hascii]
    refine iff_of_true (by omega) ⟨hctl, fun hce => hbs (Or.inl hce), fun h => absurd h (by omega)⟩
  · refine iff_of_true rfl ⟨hctl, fun hce => hbs (Or.inl hce), fun _ => hpr⟩
  · have hl : lenUtf8 c = 2 := by
      unfold lenUtf8; rw [if_neg (by omega), if_pos (by omega)]
    exact iff_of_false (by omega) (fun hp => hpr (hp.2.2 (by omega)))
  · exact iff_of_false (by omega) (fun hp => hpr (hp.2.2 (by omega)))
  · exact iff_of_false (by omega) (fun hp => hpr (hp.2.2 (by omega)))

theorem byteLen_le_incrSum (p : Char → Bool) (s : List Char) : byteLen s ≤ incrSum p s := by
  induction s with
  | nil => simp [byteLen, incrSum]
  | cons c cs ih =>
    have := lenUtf8_le_reprIncr p c
    simp only [byteLen, incrSum, List.map, List.sum_cons] at *
    omega

theorem incrSum_eq_pointwise (p : Char → Bool) (s : List Char)
    (h : incrSum p s = byteLen s) : ∀ c ∈ s, reprIncr p c = lenUtf8 c := by
  induction s with
  | nil => intro c hc; exact absurd hc (List.not_mem_nil c)
  | cons x xs ih =>
    have hx := lenUtf8_le_reprIncr p x
    have hxs := byteLen_le_incrSum p xs
    simp only [incrSum, byteLen, List.map, List.sum_cons] at h
    have hhead : reprIncr p x = lenUtf8 x := by
      have := byteLen_le_incrSum p xs
      simp only [incrSum, byteLen] at this
      omega
    have htail : incrSum p xs = byteLen xs := by
      simp only [incrSum, byteLen] at *
      omega
    intro c hc
    rcases List.mem_cons.mp hc with hceq | hcm
    · subst hceq; exact hhead
    · exact ih htail c hcm

theorem pointwise_incrSum_eq (p : Char → Bool) (s : List Char)
    (h : ∀ c ∈ s, reprIncr p c = lenUtf8 c) : incrSum p s = byteLen s := by
  induction s with
  | nil => simp [byteLen, incrSum]
  | cons x xs ih =>
    simp only [incrSum, byteLen, List.map, List.sum_cons] at *
    rw [h x (List.mem_cons_self x xs), ih (fun c hc => h c (List.mem_cons_of_mem x hc))]

theorem numEscapedQuotes_eq_count (s : List Char) :
    numEscapedQuotes s = s.count (chosenQuote s) := by
  unfold numEscapedQuotes chosenQuote choose_quotes_for_repr
  by_cases h : 0 < s.count '\'' ∧ s.count '"' = 0
  · simp only [if_pos h]
  · simp only [if_neg h]

theorem chosenQuote_cases (s : List Char) :
    chosenQuote s = '\'' ∨ chosenQuote s = '"' := by
  unfold chosenQuote choose_quotes_for_repr
  by_cases h : 0 < s.count '\'' ∧ s.count '"' = 0
  · rw [if_pos h]
    exact Or.inr rfl
  · rw [if_neg h]
    exact Or.inl rfl

/-- The iff at the heart of the fast path: the sized body length equals
the raw byte length exactly when no character needs escaping relative to a
byte-for-byte copy. -/
theorem bodyLen_eq_iff (p : Char → Bool) (s : List Char) :
    bodyLen p s = byteLen s ↔ ∀ c ∈ s, noEscapeChar p (chosenQuote s) c := by
  unfold bodyLen
  rw [numEscapedQuotes_eq_count]
  constructor
  · intro h
    have hge := byteLen_le_incrSum p s
    have hsum : incrSum p s = byteLen s := by omega
    have hcnt : s.count (chosenQuote s) = 0 := by omega
    have hnm : chosenQuote s ∉ s := List.count_eq_zero.mp hcnt
    intro c hc
    refine ⟨(reprIncr_eq_lenUtf8_iff p c).mp (incrSum_eq_pointwise p s hsum c hc), ?_⟩
    intro hce
    exact hnm (hce ▸ hc)
  · intro h
    have hsum : incrSum p s = byteLen s :=
      pointwise_incrSum_eq p s (fun c hc => (reprIncr_eq_lenUtf8_iff p c).mpr (h c hc).1)
    have hcnt : s.count (chosenQuote s) = 0 :=
      List.count_eq_zero.mpr (fun hm => (h _ hm).2 rfl)
    omega

theorem reprEmitChar_plain (p : Char → Bool) (q c : Char)
    (hc : plainChar p c) (hq : c ≠ q) : reprEmitChar p q c = [c] := by
  obtain ⟨hctl, hbs, hpr⟩ := hc
  unfold reprEmitChar
  split_ifs with h1 h2 h3 h4 h5 h6 h7
  · exact absurd (Or.inl (by subst h1; decide)) hctl
  · exact absurd (Or.inl (by subst h2; decide)) hctl
  · exact absurd (Or.inl (by subst h3; decide)) hctl
  · rcases h5 with h | h
    · exact absurd h hq
    · exact absurd h hbs
  · rfl
  · exact absurd (by omega) hctl
  · rfl
  all_goals exact absurd (hpr (by omega)) (by simp_all)

theorem reprBody_plain (p : Char → Bool) (q : Char) (s : List Char)
    (h : ∀ c ∈ s, noEscapeChar p q c) : reprBody p q s = s := by
  induction s with
  | nil => rfl
  | cons x xs ih =>
    have hx := h x (List.mem_cons_self x xs)
    simp only [reprBody]
    rw [reprEmitChar_plain p q x hx.1 hx.2, ih (fun c hc => h c (List.mem_cons_of_mem x hc))]
    rfl

/-- Whenever the sizing pass fits in isize MAX, repr succeeds and the
result is the chosen quote around the concatenated per-character
emissions. -/
theorem repr_eq_reprBody (p : Char → Bool) (s : List Char) (h : incrSum p s ≤ isizeMax) :
    repr p s = some (chosenQuote s :: reprBody p (chosenQuote s) s ++ [chosenQuote s]) := by
  unfold repr
  rw [reprPass1_eq p s 0 0 0 (Nat.zero_le _), if_pos (by omega)]
  simp only [Nat.zero_add]
  show (if incrSum p s + numEscapedQuotes s = byteLen s
        then some (chosenQuote s :: s ++ [chosenQuote s])
        else some (chosenQuote s :: reprBody p (chosenQuote s) s ++ [chosenQuote s]))
      = some (chosenQuote s :: reprBody p (chosenQuote s) s ++ [chosenQuote s])
  by_cases hu : incrSum p s + numEscapedQuotes s = byteLen s
  · rw [if_pos hu]
    have hne : ∀ c ∈ s, noEscapeChar p (chosenQuote s) c :=
      (bodyLen_eq_iff p s).mp (by unfold bodyLen; omega)
    rw [reprBody_plain p (chosenQuote s) s hne]
  · rw [if_neg hu]

/-- C3: for text in which no character requires escaping (no conflict with
the chosen quote, no control character, no backslash, no non-printable
character), repr is the chosen quote, the text byte-for-byte unchanged,
and the chosen quote again; and the sized body length equals the raw byte
length exactly when no character requires escaping. -/
theorem c3_repr_fast_path (p : Char → Bool) (s : List Char) (hlen : byteLen s ≤ isizeMax) :
    ((∀ c ∈ s, noEscapeChar p (chosenQuote s) c) →
      repr p s = some (chosenQuote s :: s ++ [chosenQuote s])) ∧
    (bodyLen p s = byteLen s ↔ ∀ c ∈ s, noEscapeChar p (chosenQuote s) c) := by
  refine ⟨?_, bodyLen_eq_iff p s⟩
  intro hne
  have hpt : incrSum p s = byteLen s :=
    pointwise_incrSum_eq p s (fun c hc => (reprIncr_eq_lenUtf8_iff p c).mpr (hne c hc).1)
  rw [repr_eq_reprBody p s (by omega), reprBody_plain p (chosenQuote s) s hne]

/-- C3 witness: a plain two-letter text round-trips between the outer
quotes, and its sized body length equals its byte length. -/
theorem c3_repr_fast_path_witness :
    repr (fun _ => true) ['a', 'b'] = some ['\'', 'a', 'b', '\''] ∧
    bodyLen (fun _ => true) ['a', 'b'] = byteLen ['a', 'b'] := by
  have h := c3_repr_fast_path (fun _ => true) ['a', 'b'] (by decide)
  exact ⟨(h.1 (by decide)).trans (by decide), h.2.mpr (by decide)⟩

/-- C4: the outer quote is the single quote unless the text has at least
one single quote and no double quote; repr is the chosen quote around the
concatenated per-character emissions, in which the chosen quote is emitted
with one leading backslash and the other quote unescaped. -/
theorem c4_quote_selection (p : Char → Bool) (s : List Char) (c : Char)
    (h : incrSum p s ≤ isizeMax) :
    chosenQuote s = (if 0 < s.count '\'' ∧ s.count '"' = 0 then '"' else '\'') ∧
    repr p s = some (chosenQuote s :: reprBody p (chosenQuote s) s ++ [chosenQuote s]) ∧
    reprEmitChar p (chosenQuote s) (chosenQuote s) = ['\\', chosenQuote s] ∧
    ((c = '\'' ∨ c = '"') → c ≠ chosenQuote s → reprEmitChar p (chosenQuote s) c = [c]) := by
  refine ⟨?_, repr_eq_reprBody p s h, ?_, ?_⟩
  · unfold chosenQuote choose_quotes_for_repr
    by_cases hc : 0 < s.count '\'' ∧ s.count '"' = 0
    · rw [if_pos hc, if_pos hc]
    · rw [if_neg hc, if_neg hc]
  · rcases chosenQuote_cases s with hq | hq <;> rw [hq] <;> rfl
  · intro hcq hne
    rcases hcq with hc1 | hc1 <;> subst hc1
    · unfold reprEmitChar
      rw [if_neg (by decide), if_neg (by decide), if_neg (by decide), if_pos (by decide),
        if_neg (not_or.mpr ⟨hne, by decide⟩)]
    · unfold reprEmitChar
      rw [if_neg (by decide), if_neg (by decide), if_neg (by decide), if_pos (by decide),
        if_neg (not_or.mpr ⟨hne, by decide⟩)]

/-- C4 witness: a text with both kinds of quote picks the single quote,
escapes the embedded single quote and leaves the double quote alone. -/
theorem c4_quote_selection_witness :
    chosenQuote ['\'', '"'] = '\'' ∧
    repr (fun _ => true) ['\'', '"'] = some ['\'', '\\', '\'', '"', '\''] ∧
    reprEmitChar (fun _ => true) (chosenQuote ['\'', '"']) (chosenQuote ['\'', '"'])
      = ['\\', chosenQuote ['\'', '"']] ∧
    reprEmitChar (fun _ => true) (chosenQuote ['\'', '"']) '"' = ['"'] := by
  have h := c4_quote_selection (fun _ => true) ['\'', '"'] '"' (by decide)
  exact ⟨h.1.trans (by decide), h.2.1.trans (by decide), h.2.2.1,
    h.2.2.2 (Or.inr rfl) (by decide)⟩

theorem totalReprLen_eq (p : Char → Bool) (s : List Char) :
    totalReprLen p s
      = incrSum p s + (choose_quotes_for_repr (s.count '\'') (s.count '"')).2 + 2 := rfl

theorem sum_replicate_nat (n k : Nat) : (List.replicate n k).sum = n * k := by
  induction n with
  | zero => simp
  | succ m ih =>
    rw [List.replicate_succ, List.sum_cons, ih, Nat.succ_mul]
    omega

/-- C5 counterexample: a text of isize MAX plain ASCII bytes has a total
computed representation length of isize MAX + 2 — the two bounding quotes
push it past isize MAX — yet repr does not report the overflow failure,
because the source only checks the per-character running total, not the
final quote additions. -/
theorem c5_counterexample :
    isizeMax < totalReprLen (fun _ => false) (List.replicate isizeMax 'a') ∧
    repr (fun _ => false) (List.replicate isizeMax 'a') ≠ none := by
  have hincr : reprIncr (fun _ => false) 'a' = 1 := rfl
  have hsum : incrSum (fun _ => false) (List.replicate isizeMax 'a') = isizeMax := by
    unfold incrSum
    rw [List.map_replicate, hincr, sum_replicate_nat, Nat.mul_one]
  have hc1 : (List.replicate isizeMax 'a').count '\'' = 0 :=
    List.count_eq_zero.mpr (fun hm => absurd (List.eq_of_mem_replicate hm) (by decide))
  have hc2 : (List.replicate isizeMax 'a').count '"' = 0 :=
    List.count_eq_zero.mpr (fun hm => absurd (List.eq_of_mem_replicate hm) (by decide))
  constructor
  · rw [totalReprLen_eq, hsum, hc1, hc2]
    have h0 : (choose_quotes_for_repr 0 0).2 = 0 := by decide
    omega
  · rw [repr_eq_reprBody _ _ (le_of_eq hsum)]
    exact fun hc => Option.noConfusion hc

/-- C5 (amended): repr reports the overflow failure exactly when the
per-character running total of the sizing pass exceeds isize MAX; the
backslashes for escaped embedded quotes and the two bounding quotes are
added without an overflow check, so a total that only they push past
isize MAX is not reported. -/
theorem c5_overflow_sizing_pass (p : Char → Bool) (s : List Char) :
    repr p s = none ↔ isizeMax < incrSum p s := by
  constructor
  · intro hnone
    by_contra hle
    push_neg at hle
    rw [repr_eq_reprBody p s hle] at hnone
    exact Option.noConfusion hnone
  · intro hgt
    unfold repr
    rw [reprPass1_eq p s 0 0 0 (Nat.zero_le _), if_neg (by omega)]

/- ---------------------------------------------------------------- -/
/- The lazy map combinator (src/vm/src/builtins/map.rs).             -/
/- ---------------------------------------------------------------- -/

/-- Modelled from the spec: the outcome of pulling one value from an
iteration capability, or of invoking a callable capability — a produced
value, a stop signal, or an error.  In the source these are the Ok value,
the StopIteration exception and any other exception of a PyResult; the
underlying protocol types are external collaborators of this excerpt. -/
inductive PullRes (V E : Type) where
  | value : V → PullRes V E
  | stop : PullRes V E
  | error : E → PullRes V E
deriving DecidableEq

/-- Modelled from the spec: an iteration capability as the script of the
outcomes its successive pulls produce; pulling consumes the head outcome
(an exhausted script keeps reporting the stop signal, like an exhausted
list iterator). -/
def pull {V E : Type} : List (PullRes V E) → PullRes V E × List (PullRes V E)
  | [] => (PullRes.stop, [])
  | r :: rest => (r, rest)

/-- src/vm/src/builtins/map.rs PyMap: the callable capability and the
ordered, fixed list of iteration capabilities. -/
structure PyMap (V E : Type) where
  mapper : List V → PullRes V E
  iterators : List (List (PullRes V E))

/-- The collect over Result of the source's next: pull one value from
each capability in list order, short-circuiting at the first pull that
does not produce a value — the capabilities after it are not pulled. -/
def pullList {V E : Type} : List (List (PullRes V E)) →
    PullRes (List V) E × List (List (PullRes V E))
  | [] => (PullRes.value [], [])
  | c :: cs =>
    match pull c with
    | (PullRes.value v, c') =>
      match pullList cs with
      | (PullRes.value vs, cs') => (PullRes.value (v :: vs), c' :: cs')
      | (PullRes.stop, cs') => (PullRes.stop, c' :: cs')
      | (PullRes.error e, cs') => (PullRes.error e, c' :: cs')
    | (PullRes.stop, c') => (PullRes.stop, c' :: cs)
    | (PullRes.error e, c') => (PullRes.error e, c' :: cs)

/-- src/vm/src/builtins/map.rs SlotIterator next for PyMap: pull one value
from every capability in order (short-circuiting on the first stop or
error), then invoke the callable on the pulled values; the callable's own
stop signal or error is returned as the combinator's outcome unmodified. -/
def PyMap.next {V E : Type} (m : PyMap V E) : PullRes V E × PyMap V E :=
  match pullList m.iterators with
  | (PullRes.value vs, its') => (m.mapper vs, ⟨m.mapper, its'⟩)
  | (PullRes.stop, its') => (PullRes.stop, ⟨m.mapper, its'⟩)
  | (PullRes.error e, its') => (PullRes.error e, ⟨m.mapper, its'⟩)

/-- Driving the combinator n times, collecting the produced outcomes. -/
def PyMap.run {V E : Type} : Nat → PyMap V E → List (PullRes V E)
  | 0, _ => []
  | n + 1, m =>
    let r := m.next
    r.1 :: PyMap.run n r.2

/-- src/vm/src/builtins/map.rs PyMap length_hint: try_fold over the held
capabilities starting from 0, taking the maximum of the accumulator and
each capability's own length-hint (a missing hint counts as 0); an error
while computing a hint short-circuits.  The per-capability hints are
computed by the external iterator length_hint collaborator, modelled as
the input list. -/
def length_hint {E : Type} : List (Except E (Option Nat)) → Nat → Except E Nat
  | [], acc => Except.ok acc
  | Except.error e :: _, _ => Except.error e
  | Except.ok o :: rest, acc => length_hint rest (max acc (o.getD 0))

/-- A capability script of a finite source of the given values, each pull
producing the next value, then exhaustion. -/
def srcOfList {V : Type} (vals : List V) : List (PullRes V Unit) :=
  vals.map PullRes.value

/-- The identity-sum callable of the spec's scenario. -/
def sumMapper (vs : List Nat) : PullRes Nat Unit := PullRes.value vs.sum

theorem pullList_pre_stop {V E : Type} (pre : List (List (PullRes V E)))
    (c : List (PullRes V E)) (post : List (List (PullRes V E)))
    (hpre : ∀ s ∈ pre, ∃ v rest, s = PullRes.value v :: rest)
    (hc : (pull c).1 = PullRes.stop) :
    pullList (pre ++ c :: post)
      = (PullRes.stop, pre.map (fun s => (pull s).2) ++ (pull c).2 :: post) := by
  induction pre with
  | nil =>
    simp only [List.nil_append, List.map_nil, pullList]
    rcases hpc : pull c with ⟨p1, p2⟩
    rw [hpc] at hc
    simp only at hc
    subst hc
    rfl
  | cons s pre' ih =>
    obtain ⟨v, rest, hs⟩ := hpre s (List.mem_cons_self s pre')
    subst hs
    have ih' := ih (fun t ht => hpre t (List.mem_cons_of_mem _ ht))
    simp only [List.cons_append, pullList, pull, List.append_eq]
    rw [ih']
    rfl

theorem pullList_all_values {V E : Type} (vs : List V)
    (rests : List (List (PullRes V E))) (hlen : vs.length = rests.length) :
    pullList (List.zipWith (fun v r => PullRes.value v :: r) vs rests)
      = (PullRes.value vs, rests) := by
  induction vs generalizing rests with
  | nil =>
    cases rests with
    | nil => rfl
    | cons r rs => exact absurd hlen (by simp)
  | cons v vtl ih =>
    cases rests with
    | nil => exact absurd hlen (by simp)
    | cons r rs =>
      simp only [List.zipWith, pullList, pull]
      rw [ih rs (by simpa using hlen)]

theorem pullList_pre_error {V E : Type} (pre : List (List (PullRes V E)))
    (c : List (PullRes V E)) (post : List (List (PullRes V E))) (e : E)
    (hpre : ∀ s ∈ pre, ∃ v rest, s = PullRes.value v :: rest)
    (hc : (pull c).1 = PullRes.error e) :
    pullList (pre ++ c :: post)
      = (PullRes.error e, pre.map (fun s => (pull s).2) ++ (pull c).2 :: post) := by
  induction pre with
  | nil =>
    simp only [List.nil_append, List.map_nil, pullList]
    rcases hpc : pull c with ⟨p1, p2⟩
    rw [hpc] at hc
    simp only at hc
    subst hc
    rfl
  | cons s pre' ih =>
    obtain ⟨v, rest, hs⟩ := hpre s (List.mem_cons_self s pre')
    subst hs
    have ih' := ih (fun t ht => hpre t (List.mem_cons_of_mem _ ht))
    simp only [List.cons_append, pullList, pull, List.append_eq]
    rw [ih']
    rfl

theorem PyMap_next_value {V E : Type} (m : List V → PullRes V E)
    (its its' : List (List (PullRes V E))) (vs : List V)
    (h : pullList its = (PullRes.value vs, its')) :
    PyMap.next ⟨m, its⟩ = (m vs, ⟨m, its'⟩) := by
  simp only [PyMap.next, h]

theorem PyMap_next_stop {V E : Type} (m : List V → PullRes V E)
    (its its' : List (List (PullRes V E)))
    (h : pullList its = (PullRes.stop, its')) :
    PyMap.next ⟨m, its⟩ = (PullRes.stop, ⟨m, its'⟩) := by
  simp only [PyMap.next, h]

theorem PyMap_next_error {V E : Type} (m : List V → PullRes V E)
    (its its' : List (List (PullRes V E))) (e : E)
    (h : pullList its = (PullRes.error e, its')) :
    PyMap.next ⟨m, its⟩ = (PullRes.error e, ⟨m, its'⟩) := by
  simp only [PyMap.next, h]

/-- C6: produce-next pulls one value from each capability in list order;
at the first capability whose pull reports the stop signal, produce-next
reports the stop signal at once — the capabilities after it in the list
are not pulled (their states are untouched); consequently, over sources of
lengths 2, 3 and 4, exactly 2 values are produced before termination. -/
theorem c6_short_circuit_stop (V E : Type) (m : List V → PullRes V E)
    (pre : List (List (PullRes V E))) (c : List (PullRes V E))
    (post : List (List (PullRes V E)))
    (hpre : ∀ s ∈ pre, ∃ v rest, s = PullRes.value v :: rest)
    (hc : (pull c).1 = PullRes.stop) :
    (PyMap.next ⟨m, pre ++ c :: post⟩).1 = PullRes.stop ∧
    (PyMap.next ⟨m, pre ++ c :: post⟩).2.iterators
      = pre.map (fun s => (pull s).2) ++ (pull c).2 :: post ∧
    PyMap.run 3 ⟨sumMapper,
        [srcOfList [1, 2], srcOfList [10, 20, 30], srcOfList [100, 200, 300, 400]]⟩
      = [PullRes.value 111, PullRes.value 222, PullRes.stop] := by
  have hnext := PyMap_next_stop m (pre ++ c :: post)
    (pre.map (fun s => (pull s).2) ++ (pull c).2 :: post)
    (pullList_pre_stop pre c post hpre hc)
  refine ⟨by rw [hnext], by rw [hnext], by rfl⟩

/-- C6 witness: a source that stops mid-list stops the combinator at once
and the later source is untouched; sources of lengths 2, 3, 4 with the
identity-sum callable produce exactly 2 values and then stop. -/
theorem c6_short_circuit_stop_witness :
    (PyMap.next ⟨sumMapper, [[PullRes.value 5], [], [PullRes.value 9]]⟩).1
      = PullRes.stop ∧
    (PyMap.next ⟨sumMapper, [[PullRes.value 5], [], [PullRes.value 9]]⟩).2.iterators
      = [[], [], [PullRes.value 9]] ∧
    PyMap.run 3 ⟨sumMapper,
        [srcOfList [1, 2], srcOfList [10, 20, 30], srcOfList [100, 200, 300, 400]]⟩
      = [PullRes.value 111, PullRes.value 222, PullRes.stop] := by
  have h := c6_short_circuit_stop Nat Unit sumMapper [[PullRes.value 5]] [] [[PullRes.value 9]]
    (by
      intro s hs
      simp only [List.mem_singleton] at hs
      subst hs
      exact ⟨5, [], rfl⟩)
    rfl
  exact ⟨h.1, h.2.1.trans (by decide), h.2.2⟩

/-- C7: when every pull produces a value, the callable's stop signal
becomes the combinator's own stop signal (not an error), the callable's
error propagates unmodified, and an error reported by a pull propagates
unmodified with the later capabilities left untouched. -/
theorem c7_stop_and_error_propagation (V E : Type) (m : List V → PullRes V E)
    (vs : List V) (rests : List (List (PullRes V E))) (e : E)
    (pre : List (List (PullRes V E))) (c : List (PullRes V E))
    (post : List (List (PullRes V E)))
    (hlen : vs.length = rests.length)
    (hpre : ∀ s ∈ pre, ∃ v rest, s = PullRes.value v :: rest) :
    (m vs = PullRes.stop →
      (PyMap.next ⟨m, List.zipWith (fun v r => PullRes.value v :: r) vs rests⟩).1
        = PullRes.stop) ∧
    (m vs = PullRes.error e →
      (PyMap.next ⟨m, List.zipWith (fun v r => PullRes.value v :: r) vs rests⟩).1
        = PullRes.error e) ∧
    ((pull c).1 = PullRes.error e →
      (PyMap.next ⟨m, pre ++ c :: post⟩).1 = PullRes.error e ∧
      (PyMap.next ⟨m, pre ++ c :: post⟩).2.iterators
        = pre.map (fun s => (pull s).2) ++ (pull c).2 :: post) := by
  have hall := PyMap_next_value m _ rests vs (pullList_all_values vs rests hlen)
  refine ⟨?_, ?_, ?_⟩
  · intro hm
    rw [hall]
    exact hm
  · intro hm
    rw [hall]
    exact hm
  · intro hc
    have hnext := PyMap_next_error m (pre ++ c :: post)
      (pre.map (fun s => (pull s).2) ++ (pull c).2 :: post) e
      (pullList_pre_error pre c post e hpre hc)
    exact ⟨by rw [hnext], by rw [hnext]⟩

/-- C7 witness: a callable that stops ends the combinator with the stop
signal, a callable error and a pull error come through unmodified, and an
erroring source leaves no extra pulls behind. -/
theorem c7_stop_and_error_propagation_witness :
    (PyMap.next ⟨(fun _ => PullRes.stop : List Nat → PullRes Nat Unit),
        [[PullRes.value 1]]⟩).1 = PullRes.stop ∧
    (PyMap.next ⟨(fun _ => PullRes.error 7 : List Nat → PullRes Nat Nat),
        [[PullRes.value 1]]⟩).1 = PullRes.error 7 ∧
    (PyMap.next ⟨(fun _ => PullRes.error 9 : List Nat → PullRes Nat Nat),
        [[PullRes.error 7]]⟩).1 = PullRes.error 7 ∧
    (PyMap.next ⟨(fun _ => PullRes.error 9 : List Nat → PullRes Nat Nat),
        [[PullRes.error 7]]⟩).2.iterators = [[]] := by
  have h1 := c7_stop_and_error_propagation Nat Unit (fun _ => PullRes.stop)
    [1] [[]] () [] [] [] rfl (by intro s hs; exact absurd hs (List.not_mem_nil s))
  have h2 := c7_stop_and_error_propagation Nat Nat (fun _ => PullRes.error 7)
    [1] [[]] 7 [] [] [] rfl (by intro s hs; exact absurd hs (List.not_mem_nil s))
  have h3 := c7_stop_and_error_propagation Nat Nat (fun _ => PullRes.error 9)
    [1] [[]] 7 [] [PullRes.error 7] [] rfl
    (by intro s hs; exact absurd hs (List.not_mem_nil s))
  exact ⟨h1.1 rfl, h2.2.1 rfl, (h3.2.2 rfl).1, ((h3.2.2 rfl).2).trans (by decide)⟩

/-- C8: length_hint returns the maximum — not the minimum — of the held
capabilities' own length-hints, a missing hint counting as 0; hints 2 and
5 yield 5 (the result is a Nat, hence non-negative). -/
theorem c8_length_hint_max (E : Type) (os : List (Option Nat)) :
    length_hint (E := E) (os.map Except.ok) 0
      = Except.ok ((os.map (fun o => o.getD 0)).foldl max 0) ∧
    length_hint (E := E) [Except.ok (some 2), Except.ok (some 5)] 0 = Except.ok 5 := by
  have hgen : ∀ (os' : List (Option Nat)) (acc : Nat),
      length_hint (E := E) (os'.map Except.ok) acc
        = Except.ok ((os'.map (fun o => o.getD 0)).foldl max acc) := by
    intro os'
    induction os' with
    | nil => intro acc; rfl
    | cons o tl ih =>
      intro acc
      simp only [List.map, length_hint, List.foldl]
      exact ih (max acc (o.getD 0))
  exact ⟨hgen os 0, rfl⟩

/-- C10: with zero held capabilities, every produce-next call invokes the
callable on the empty argument list and returns its outcome; the
combinator never reports the stop signal on its own, so a callable that
keeps producing values makes every one of the n driven calls produce a
value. -/
theorem c10_zero_sources (V E : Type) (m : List V → PullRes V E) (n : Nat) (v : V) :
    PyMap.next ⟨m, ([] : List (List (PullRes V E)))⟩ = (m [], ⟨m, []⟩) ∧
    (m [] = PullRes.value v →
      PyMap.run n ⟨m, []⟩ = List.replicate n (PullRes.value v)) := by
  have hnext : PyMap.next ⟨m, ([] : List (List (PullRes V E)))⟩ = (m [], ⟨m, []⟩) :=
    PyMap_next_value m [] [] [] rfl
  refine ⟨hnext, ?_⟩
  intro hv
  induction n with
  | zero => rfl
  | succ k ih =>
    rw [List.replicate_succ]
    simp only [PyMap.run, hnext, hv]
    exact congrArg (PullRes.value v :: ·) ih

/-- C10 witness: with no sources and a constant-value callable, three
produce-next calls produce three values and no stop signal. -/
theorem c10_zero_sources_witness :
    PyMap.run 3 ⟨(fun _ => PullRes.value 7 : List Nat → PullRes Nat Unit), []⟩
      = [PullRes.value 7, PullRes.value 7, PullRes.value 7] := by
  have h := c10_zero_sources Nat Unit (fun _ => PullRes.value 7) 3 7
  exact (h.2 rfl).trans (by decide)

end RustPython
